import Mathlib

/-!
Verification of `metro/modeling/model/pct_tokenizer.py` (Pose Compositional
Tokens tokenizer).  Tensor arithmetic is modeled exactly over `ℚ`; tensors
are row lists.  The `MixerLayer` stack (an external module, `.modules`, not
part of this file's source) and the `LayerNorm` that follows it (whose
reciprocal square root is irrational) are carried as opaque same-shape
transforms, as the design document prescribes for the mixer block.
-/

namespace PCT

abbrev Vec := List ℚ

abbrev Mat := List (List ℚ)

/-- Training stage of the module (`stage_pct` in the source); the repository
uses exactly the two strings "tokenizer" and "classifier". -/
inductive Stage where
  | tokenizer
  | classifier
  deriving DecidableEq, Repr

/-- Inner product of two rows. -/
def dot (x y : Vec) : ℚ := (List.zipWith (fun a b => a * b) x y).sum

/-- Squared Euclidean norm, `torch.sum(v**2)`. -/
def sqnorm (x : Vec) : ℚ := dot x x

/-- Element-wise sum of two rows. -/
def vadd (x y : Vec) : Vec := List.zipWith (fun a b => a + b) x y

/-- Element-wise difference of two rows. -/
def vsub (x y : Vec) : Vec := List.zipWith (fun a b => a - b) x y

/-- Scalar multiple of a row. -/
def smul (a : ℚ) (x : Vec) : Vec := x.map (fun b => a * b)

/-- Row-vector times matrix, where `B` has `m` columns. -/
def vecMat (m : Nat) (v : Vec) (B : Mat) : Vec :=
  (List.zipWith smul v B).foldl vadd (List.replicate m 0)

/-- Matrix product `A · B` (`torch.matmul`), where `B` has `m` columns. -/
def matMul (m : Nat) (A B : Mat) : Mat := A.map (fun row => vecMat m row B)

/-- `nn.Linear` with weight rows `W` and bias `b`: `x ↦ W x + b`. -/
def linear (W : Mat) (b : Vec) (x : Vec) : Vec :=
  List.zipWith (fun row bi => dot row x + bi) W b

/-- A linear layer applied to every row of a matrix (torch applies
`nn.Linear` along the last axis). -/
def linearMat (W : Mat) (b : Vec) (M : Mat) : Mat := M.map (linear W b)

/-- `Tensor.detach()`: the identity on forward values (it only cuts the
gradient graph, which this value-level model does not track). -/
def detach (x : ℚ) : ℚ := x

/-- `detach` applied to every entry of a matrix. -/
def detachMat (M : Mat) : Mat := M.map (fun r => r.map detach)

/-- Sum of the rows of a matrix (`torch.sum(·, 0)`), for rows of length `K`. -/
def colSum (K : Nat) (M : Mat) : Vec := M.foldl vadd (List.replicate K 0)

/-- `torch.argmin` over a vector: the index of the minimum entry; on ties the
first (lowest) index is returned. -/
def argmin (l : List ℚ) : Nat := l.findIdx (fun d => l.all (fun e => decide (d ≤ e)))

/-- One-hot row of length `K` with the hot entry at `i` (the `scatter_` of
source lines 200-202). -/
def oneHot (K i : Nat) : Vec := (List.range K).map (fun k => if k = i then (1 : ℚ) else 0)

/-- Squared-distance row of a query `x` against every codebook entry, by the
expansion of source lines 195-197. -/
def distanceRow (cb : Mat) (x : Vec) : Vec :=
  cb.map (fun c => sqnorm x + sqnorm c - 2 * dot x c)

/-- `F.mse_loss`: mean over all elements of the squared difference. -/
def mse (A B : Mat) : ℚ :=
  (List.zipWith (fun r s => ((vsub r s).map (fun a => a * a)).sum) A B).sum /
    (A.map (fun r => (r.length : ℚ))).sum

/-- Source line 238: `encode_feat + (part_token_feat - encode_feat).detach()`. -/
def straightThrough (c q : Mat) : Mat :=
  List.zipWith (fun cr qr => List.zipWith (fun a b => a + detach (b - a)) cr qr) c q

/-- The Laplace smoothing constant `1e-5` of source lines 231-233, as an
exact rational. -/
def eps : ℚ := 1 / 100000

/-- Source lines 230-233: Laplace-smooth the per-class sizes and renormalize
them against the pre-renormalization total mass `n`. -/
def renormalize (K : Nat) (s : Vec) : Vec :=
  let n := s.sum
  s.map (fun x => (x + eps) / (n + (K : ℚ) * eps) * n)

/-- The three registered buffers of `PCT_Tokenizer` (source lines 141-148). -/
structure QuantState where
  codebook : Mat
  ema_cluster_size : Vec
  ema_w : Mat
  deriving DecidableEq, Repr

/-- Constructor-time configuration and learned parameters of
`PCT_Tokenizer`.  `encoderMix`/`decoderMix` stand for the MixerLayer stacks
followed by their LayerNorm: the mixer code lives in the external `.modules`
file and is specified only as an opaque same-shape transform, and LayerNorm
divides by an (irrational) square root, so both are opaque functions here. -/
structure Params where
  stage_pct : Stage
  num_joints : Nat
  guide_ratio : ℚ
  drop_rate : ℚ
  token_num : Nat
  token_class_num : Nat
  token_dim : Nat
  decay : ℚ
  invisible_token : Vec
  start_embed_W : Mat
  start_embed_b : Vec
  start_img_embed_W : Mat
  start_img_embed_b : Vec
  encoderMix : Mat → Mat
  token_mlp_W : Mat
  token_mlp_b : Vec
  feature_embed_W : Mat
  feature_embed_b : Vec
  decoder_token_mlp_W : Mat
  decoder_token_mlp_b : Vec
  decoder_start_W : Mat
  decoder_start_b : Vec
  decoderMix : Mat → Mat
  recover_embed_W : Mat
  recover_embed_b : Vec

/-- One joint record `(x, y, visible)`: the input rows of the
`[B, num_joints, 3]` tensor, visibility read off by `joints[:,:,-1].bool()`. -/
abbrev Joint := ℚ × ℚ × Bool

/-- Source lines 168-185 for one batch element: coordinate embedding,
optional image-guidance concat, training-time stochastic dropout of visible
joints, and the invisible-token mask blend of line 185.  `rand` is the
per-joint uniform draw of line 179 (dropout keeps a joint when
`rand > drop_rate`). -/
def encodeMasked (P : Params) (train : Bool) (joints : List Joint)
    (jfeat : Mat) (rand : List ℚ) : Mat :=
  let joints_coord : Mat := joints.map (fun j => [j.1, j.2.1])
  let joints_visible : List Bool := joints.map (fun j => j.2.2)
  let feat0 := joints_coord.map (linear P.start_embed_W P.start_embed_b)
  let encode_feat :=
    if 0 < P.guide_ratio then
      List.zipWith (fun f g => f ++ linear P.start_img_embed_W P.start_img_embed_b g)
        feat0 jfeat
    else feat0
  let joints_visible :=
    if train ∧ P.stage_pct = Stage.tokenizer then
      List.zipWith (fun r v => decide (P.drop_rate < r) && v) rand joints_visible
    else joints_visible
  List.zipWith
    (fun f v =>
      let w : ℚ := if v then 1 else 0
      List.zipWith (fun a m => a * w + m * (1 - w)) f P.invisible_token)
    encode_feat joints_visible

/-- Encoder of the tokenizer for one batch element (source lines 168-193):
the masked embedding above, the opaque Mixer stack + LayerNorm, then the
projections joints → token slots and channels → `token_dim`. -/
def encodeElem (P : Params) (train : Bool) (joints : List Joint)
    (jfeat : Mat) (rand : List ℚ) : Mat :=
  let mixed := P.encoderMix (encodeMasked P train joints jfeat rand)
  let t := linearMat P.token_mlp_W P.token_mlp_b mixed.transpose
  linearMat P.feature_embed_W P.feature_embed_b t.transpose

/-- Whole-batch encoder followed by `flatten(0,1)` (line 193): the
per-element token features concatenated into `[B*token_num, token_dim]`. -/
def encodeBatch (P : Params) (train : Bool) (joints : List (List Joint))
    (joints_feature : List Mat) (rand : List (List ℚ)) : Mat :=
  ((joints.zip (joints_feature.zip rand)).map
    (fun x => encodeElem P train x.1 x.2.1 x.2.2)).flatten

/-- EMA codebook update, source lines 217-236.  `dist.all_reduce` is an
element-wise sum across workers; in a single-process run (the model here) it
is the identity, so `sync_encodings`/`sync_dw` equal the local values. -/
def emaStep (P : Params) (st : QuantState) (encodings encode_feat : Mat) : QuantState :=
  let dw := matMul P.token_dim encodings.transpose (detachMat encode_feat)
  let sync_encodings := encodings
  let sync_dw := dw
  let ema_cluster_size :=
    List.zipWith (fun s e => s * P.decay + (1 - P.decay) * e)
      st.ema_cluster_size (colSum P.token_class_num sync_encodings)
  let ema_cluster_size := renormalize P.token_class_num ema_cluster_size
  let ema_w := List.zipWith
    (fun wr dr => List.zipWith (fun w d => w * P.decay + (1 - P.decay) * d) wr dr)
    st.ema_w sync_dw
  let codebook := List.zipWith (fun wr s => wr.map (fun a => a / s)) ema_w ema_cluster_size
  { codebook := codebook, ema_cluster_size := ema_cluster_size, ema_w := ema_w }

/-- Decoder for one batch element (source lines 248-256): project token
slots → joints and `token_dim` → decoder hidden width, run the opaque Mixer
stack + LayerNorm, recover `(x, y)` per joint. -/
def decodeElem (P : Params) (tokens : Mat) : Mat :=
  let t := linearMat P.decoder_token_mlp_W P.decoder_token_mlp_b tokens.transpose
  let d := linearMat P.decoder_start_W P.decoder_start_b t.transpose
  let d := P.decoderMix d
  linearMat P.recover_embed_W P.recover_embed_b d

/-- `view(bs, -1, token_dim)` on a row list (line 243): split the
`[bs*token_num, D]` rows into `bs` consecutive groups of `token_num`. -/
def reshapeRows (bs T : Nat) (rows : Mat) : List Mat :=
  (List.range bs).map (fun i => (rows.drop (i * T)).take T)

/-- The output tuple of `PCT_Tokenizer.forward` (source line 258); the field
spelling follows the source. -/
structure ForwardOut where
  recoverd_joints : List Mat
  encoding_indices : Option (List Nat)
  e_latent_loss : Option ℚ
  out_part_token_feat : List Mat
  deriving DecidableEq, Repr

/-- The forward pass of `PCT_Tokenizer` (source lines 163-258), returning
the output tuple and the (possibly updated) buffer state.  `rand` models the
`torch.rand` draw of line 179, one row per batch element. -/
def forward (P : Params) (st : QuantState) (joints : List (List Joint))
    (joints_feature : List Mat) (cls_logits : Mat) (rand : List (List ℚ))
    (train : Bool) : ForwardOut × QuantState :=
  let encBranch : Nat × Option (List Nat) × Mat × Mat :=
    if train ∨ P.stage_pct = Stage.tokenizer then
      let bs := joints.length
      let encode_feat := encodeBatch P train joints joints_feature rand
      let encoding_indices := encode_feat.map (fun x => argmin (distanceRow st.codebook x))
      let encodings := encoding_indices.map (oneHot P.token_class_num)
      (bs, some encoding_indices, encode_feat, encodings)
    else
      (cls_logits.length / P.token_num, none, [], [])
  let bs := encBranch.1
  let encoding_indices := encBranch.2.1
  let encode_feat := encBranch.2.2.1
  let encodings := encBranch.2.2.2
  let part_token_feat :=
    if P.stage_pct = Stage.classifier then matMul P.token_dim cls_logits st.codebook
    else matMul P.token_dim encodings st.codebook
  let emaBranch : QuantState × Option ℚ × Mat :=
    if train ∧ P.stage_pct = Stage.tokenizer then
      let st1 := emaStep P st encodings encode_feat
      let e_latent_loss := mse (detachMat part_token_feat) encode_feat
      (st1, some e_latent_loss, straightThrough encode_feat part_token_feat)
    else
      (st, none, part_token_feat)
  let st1 := emaBranch.1
  let e_latent_loss := emaBranch.2.1
  let part_view := reshapeRows bs P.token_num emaBranch.2.2
  let out_part_token_feat := part_view.map detachMat
  let recoverd := part_view.map (decodeElem P)
  ({ recoverd_joints := recoverd, encoding_indices := encoding_indices,
     e_latent_loss := e_latent_loss, out_part_token_feat := out_part_token_feat }, st1)

/-- Outcome of `init_weights` (source lines 260-293). -/
inductive InitOutcome where
  | assertFail   -- the `assert` of line 272 fires (AssertionError)
  | loaded       -- pretrained weights are loaded into the module (line 288)
  | warnedNoLoad -- the operator warning of lines 290-293; nothing is loaded
  | silentNoLoad -- no file, tokenizer stage: random init kept silently
  deriving DecidableEq, Repr

/-- Control flow of `init_weights`: `pretrained_isfile` is the value of
`os.path.isfile(pretrained)`, an external filesystem fact.  The checkpoint
contents matter only on the `loaded` path and are not modeled. -/
def init_weights (stage_pct : Stage) (pretrained_isfile : Bool) : InitOutcome :=
  if pretrained_isfile then
    if stage_pct = Stage.classifier then InitOutcome.loaded else InitOutcome.assertFail
  else
    if stage_pct = Stage.classifier then InitOutcome.warnedNoLoad
    else InitOutcome.silentNoLoad

/-! ### Concrete instances used by witnesses and counterexamples -/

/-- A minimal concrete configuration in classifier stage (all dims 1, the
opaque mixer stacks instantiated with the identity transform). -/
def P0 : Params where
  stage_pct := Stage.classifier
  num_joints := 1
  guide_ratio := 0
  drop_rate := 0
  token_num := 1
  token_class_num := 1
  token_dim := 1
  decay := 1 / 2
  invisible_token := [0]
  start_embed_W := [[1, 0]]
  start_embed_b := [0]
  start_img_embed_W := []
  start_img_embed_b := []
  encoderMix := fun m => m
  token_mlp_W := [[1]]
  token_mlp_b := [0]
  feature_embed_W := [[1]]
  feature_embed_b := [0]
  decoder_token_mlp_W := [[1]]
  decoder_token_mlp_b := [0]
  decoder_start_W := [[1]]
  decoder_start_b := [0]
  decoderMix := fun m => m
  recover_embed_W := [[1], [1]]
  recover_embed_b := [0, 0]

/-- The same minimal configuration in tokenizer stage. -/
def P1 : Params := { P0 with stage_pct := Stage.tokenizer }

/-- A concrete buffer state matching `P0`/`P1`. -/
def st0 : QuantState where
  codebook := [[0]]
  ema_cluster_size := [1]
  ema_w := [[0]]

/-! ### Claim theorems -/

/-- C1: for every forward call, the returned quantization loss is non-None
if and only if `train = true` and the configured stage is tokenizer; in
every other combination it is `None`. -/
theorem quant_loss_iff_train_and_tokenizer (P : Params) (st : QuantState)
    (joints : List (List Joint)) (jf : List Mat) (cls : Mat)
    (rand : List (List ℚ)) (train : Bool) :
    (forward P st joints jf cls rand train).1.e_latent_loss.isSome = true ↔
      (train = true ∧ P.stage_pct = Stage.tokenizer) := by
  cases train <;> cases hP : P.stage_pct <;> simp [forward, hP]

/-- C2 counterexample: in classifier stage with `train = true` the encoder
path still runs (the gate of line 166 is `train or stage == "tokenizer"`),
so the returned `encoding_indices` is not `None`. -/
theorem classifier_train_indices_not_none :
    (forward P0 st0 [[(0, 0, true)]] [[[0]]] [[1]] [[1]] true).1.encoding_indices ≠
      none := by
  decide

/-- C2 (amended): the returned `encoding_indices` is `None` exactly when the
stage is classifier and `train = false`; in classifier stage with
`train = true` the encoder path runs and returns the computed indices. -/
theorem encoding_indices_none_iff (P : Params) (st : QuantState)
    (joints : List (List Joint)) (jf : List Mat) (cls : Mat)
    (rand : List (List ℚ)) (train : Bool) :
    (forward P st joints jf cls rand train).1.encoding_indices = none ↔
      (train = false ∧ P.stage_pct = Stage.classifier) := by
  cases train <;> cases hP : P.stage_pct <;> simp [forward, hP]

/-- C3: a forward call leaves the `codebook`, `ema_cluster_size` and `ema_w`
buffers unchanged unless `train = true` and the stage is tokenizer; in
particular classifier-stage calls never mutate them. -/
theorem forward_state_frame (P : Params) (st : QuantState)
    (joints : List (List Joint)) (jf : List Mat) (cls : Mat)
    (rand : List (List ℚ)) (train : Bool)
    (h : ¬(train = true ∧ P.stage_pct = Stage.tokenizer)) :
    (forward P st joints jf cls rand train).2 = st := by
  cases train <;> cases hP : P.stage_pct <;> simp_all [forward]

/-- C3 witness: a concrete classifier-stage training call keeps the state. -/
theorem forward_state_frame_witness :
    (forward P0 st0 [[(0, 0, true)]] [[[0]]] [[1]] [[1]] true).2 = st0 :=
  forward_state_frame P0 st0 [[(0, 0, true)]] [[[0]]] [[1]] [[1]] true (by decide)

/-- C9: `init_weights` never loads weights into a tokenizer-stage model:
with an existing pretrained file it hits the hard assertion, while a
classifier-stage call without a valid file proceeds without loading and
only emits the operator warning. -/
theorem init_weights_stage_guard :
    (∀ isfile : Bool, init_weights Stage.tokenizer isfile ≠ InitOutcome.loaded) ∧
    init_weights Stage.tokenizer true = InitOutcome.assertFail ∧
    init_weights Stage.classifier false = InitOutcome.warnedNoLoad := by
  decide

/-- Helper for C7: one row of the straight-through sum. -/
theorem zipWith_straight_row (r s : Vec) (h : r.length = s.length) :
    List.zipWith (fun a b => a + detach (b - a)) r s = s := by
  induction r generalizing s with
  | nil =>
    cases s with
    | nil => rfl
    | cons b s => simp at h
  | cons a r ih =>
    cases s with
    | nil => simp at h
    | cons b s =>
      simp only [List.zipWith_cons_cons, detach, List.cons.injEq]
      exact ⟨by ring, ih s (by simpa using h)⟩

/-- C7: the straight-through value `continuous + (quantized - continuous)
.detach()` equals `quantized` element-wise, for same-shape inputs. -/
theorem straightThrough_eq (c q : Mat)
    (h : List.Forall₂ (fun r s => r.length = s.length) c q) :
    straightThrough c q = q := by
  induction h with
  | nil => rfl
  | cons hr ht ih =>
    simp only [straightThrough, List.zipWith_cons_cons] at *
    rw [zipWith_straight_row _ _ hr, ih]

/-- C7 witness at concrete tensors. -/
theorem straightThrough_eq_witness :
    straightThrough [[1, 2], [5]] [[3, 4], [7]] = [[3, 4], [7]] :=
  straightThrough_eq [[1, 2], [5]] [[3, 4], [7]]
    (List.Forall₂.cons rfl (List.Forall₂.cons rfl List.Forall₂.nil))

/-- Helper for C5: summing an affine map over a list. -/
theorem sum_map_affine (s : Vec) (e c : ℚ) :
    (s.map (fun x => (x + e) * c)).sum = (s.sum + (s.length : ℚ) * e) * c := by
  induction s with
  | nil => simp
  | cons a s ih =>
    simp only [List.map_cons, List.sum_cons, ih, List.length_cons]
    push_cast
    ring

/-- C5: the Laplace-smoothing renormalization preserves total mass: for any
nonnegative statistics vector of length `token_class_num`, the sum after
`(s + 1e-5) / (n + K * 1e-5) * n` equals the pre-renormalization sum `n`. -/
theorem renormalize_mass (K : Nat) (s : Vec) (hnn : ∀ x ∈ s, 0 ≤ x)
    (hK : s.length = K) : (renormalize K s).sum = s.sum := by
  unfold renormalize
  simp only [div_eq_mul_inv, mul_assoc]
  rw [sum_map_affine s eps ((s.sum + (K : ℚ) * eps)⁻¹ * s.sum), hK]
  rcases eq_or_ne (s.sum + (K : ℚ) * eps) 0 with h0 | h0
  · have hs : 0 ≤ s.sum := List.sum_nonneg hnn
    have hKe : 0 ≤ (K : ℚ) * eps := by
      have : (0 : ℚ) ≤ (K : ℚ) := by positivity
      have he : (0 : ℚ) ≤ eps := by norm_num [eps]
      exact mul_nonneg this he
    have hsum0 : s.sum = 0 := by linarith
    simp [hsum0]
  · rw [← mul_assoc, mul_inv_cancel₀ h0, one_mul]

/-- C5 witness at a concrete statistics vector. -/
theorem renormalize_mass_witness : (renormalize 2 [1, 2]).sum = ([1, 2] : Vec).sum :=
  renormalize_mass 2 [1, 2] (by decide) (by decide)

/-- Helper for C4: entry `(c, d)` of the per-class division of line 236. -/
theorem zipWith_div_entry (W : Mat) (s : Vec) (c d : Nat)
    (hc : c < W.length) (hc2 : c < s.length) (hd : d < (W[c]!).length) :
    ((List.zipWith (fun wr x => wr.map (fun a => a / x)) W s)[c]!)[d]! =
      (W[c]!)[d]! / s[c]! := by
  have hWc : W[c]! = W[c] := getElem!_pos W c hc
  have hsc : s[c]! = s[c] := getElem!_pos s c hc2
  rw [hWc] at hd
  have hcz : c < (List.zipWith (fun wr x => wr.map (fun a => a / x)) W s).length := by
    rw [List.length_zipWith]; omega
  have hz : (List.zipWith (fun wr x => wr.map (fun a => a / x)) W s)[c]! =
      (List.zipWith (fun wr x => wr.map (fun a => a / x)) W s)[c] :=
    getElem!_pos (List.zipWith (fun wr x => wr.map (fun a => a / x)) W s) c hcz
  rw [hz, List.getElem_zipWith]
  have hd2 : d < ((W[c]).map (fun a => a / s[c])).length := by simpa using hd
  have hm : ((W[c]).map (fun a => a / s[c]))[d]! =
      ((W[c]).map (fun a => a / s[c]))[d] :=
    getElem!_pos ((W[c]).map (fun a => a / s[c])) d hd2
  have hWcd : (W[c])[d]! = (W[c])[d] := getElem!_pos (W[c]) d hd
  rw [hm, List.getElem_map, hWc, hsc, hWcd]

/-- Helper for C4: the invariant stated on one `emaStep`. -/
theorem emaStep_codebook_entry (P : Params) (st : QuantState) (enc ef : Mat) (c d : Nat)
    (hc : c < (emaStep P st enc ef).ema_w.length)
    (hc2 : c < (emaStep P st enc ef).ema_cluster_size.length)
    (hd : d < ((emaStep P st enc ef).ema_w[c]!).length) :
    ((emaStep P st enc ef).codebook[c]!)[d]! =
      ((emaStep P st enc ef).ema_w[c]!)[d]! /
        (emaStep P st enc ef).ema_cluster_size[c]! := by
  simp only [emaStep] at hc hc2 hd ⊢
  exact zipWith_div_entry _ _ c d hc hc2 hd

/-- C4: after the EMA update performed by a training-tokenizer forward call,
every codebook entry equals the matching `ema_w` entry divided by the
matching `ema_cluster_size` entry. -/
theorem codebook_eq_ema_div (P : Params) (st : QuantState)
    (joints : List (List Joint)) (jf : List Mat) (cls : Mat) (rand : List (List ℚ))
    (hP : P.stage_pct = Stage.tokenizer) (c d : Nat)
    (hc : c < (forward P st joints jf cls rand true).2.ema_w.length)
    (hc2 : c < (forward P st joints jf cls rand true).2.ema_cluster_size.length)
    (hd : d < ((forward P st joints jf cls rand true).2.ema_w[c]!).length) :
    ((forward P st joints jf cls rand true).2.codebook[c]!)[d]! =
      ((forward P st joints jf cls rand true).2.ema_w[c]!)[d]! /
        (forward P st joints jf cls rand true).2.ema_cluster_size[c]! := by
  have hfwd : (forward P st joints jf cls rand true).2 =
      emaStep P st
        (((encodeBatch P true joints jf rand).map
          (fun x => argmin (distanceRow st.codebook x))).map (oneHot P.token_class_num))
        (encodeBatch P true joints jf rand) := by
    simp [forward, hP]
  rw [hfwd] at hc hc2 hd ⊢
  exact emaStep_codebook_entry P st _ _ c d hc hc2 hd

/-- C4 witness: the invariant evaluated after one concrete training call. -/
theorem codebook_eq_ema_div_witness :
    ((forward P1 st0 [[(0, 0, true)]] [[[0]]] [[1]] [[1]] true).2.codebook[0]!)[0]! =
      ((forward P1 st0 [[(0, 0, true)]] [[[0]]] [[1]] [[1]] true).2.ema_w[0]!)[0]! /
        (forward P1 st0 [[(0, 0, true)]] [[[0]]] [[1]] [[1]] true).2.ema_cluster_size[0]! :=
  codebook_eq_ema_div P1 st0 [[(0, 0, true)]] [[[0]]] [[1]] [[1]] (by decide) 0 0
    (by decide) (by decide) (by decide)

/-- Every nonempty rational list has a least element. -/
theorem exists_min (l : List ℚ) (h : l ≠ []) : ∃ x ∈ l, ∀ y ∈ l, x ≤ y := by
  induction l with
  | nil => exact absurd rfl h
  | cons a l ih =>
    cases l with
    | nil =>
      refine ⟨a, by simp, ?_⟩
      intro y hy
      rw [List.mem_singleton] at hy
      rw [hy]
    | cons b m =>
      obtain ⟨x, hx, hmin⟩ := ih (by simp)
      rcases le_total a x with hax | hxa
      · refine ⟨a, List.mem_cons_self a (b :: m), ?_⟩
        intro y hy
        rcases List.mem_cons.mp hy with rfl | hy
        · exact le_refl _
        · exact le_trans hax (hmin y hy)
      · refine ⟨x, List.mem_cons_of_mem a hx, ?_⟩
        intro y hy
        rcases List.mem_cons.mp hy with rfl | hy
        · exact hxa
        · exact hmin y hy

/-- `argmin` of a nonempty list is a valid index. -/
theorem argmin_lt_length (l : List ℚ) (h : l ≠ []) : argmin l < l.length := by
  unfold argmin
  apply List.findIdx_lt_length_of_exists
  obtain ⟨x, hx, hmin⟩ := exists_min l h
  refine ⟨x, hx, ?_⟩
  simp only [List.all_eq_true, decide_eq_true_eq]
  exact hmin

/-- The entry at `argmin` is a lower bound for every entry. -/
theorem argmin_le_mem (l : List ℚ) (hm : argmin l < l.length) (y : ℚ) (hy : y ∈ l) :
    l[argmin l] ≤ y := by
  unfold argmin at hm ⊢
  have hp := List.findIdx_getElem (p := fun d => l.all (fun e => decide (d ≤ e))) (w := hm)
  simp only [List.all_eq_true, decide_eq_true_eq] at hp
  exact hp y hy

/-- Entries strictly before `argmin` are strictly larger: `argmin` returns
the first occurrence of the minimum. -/
theorem argmin_first (l : List ℚ) (i : Nat) (hi : i < argmin l) (hm : argmin l < l.length) :
    l[argmin l] < l[i] := by
  have hnp := List.not_of_lt_findIdx (p := fun d => l.all (fun e => decide (d ≤ e))) hi
  simp only [List.all_eq_false, decide_eq_true_eq, not_le] at hnp
  obtain ⟨y, hy, hlt⟩ := hnp
  exact lt_of_le_of_lt (argmin_le_mem l hm y hy) hlt

/-- Head decomposition of the dot product. -/
theorem dot_cons (a b : ℚ) (x y : Vec) : dot (a :: x) (b :: y) = a * b + dot x y := by
  simp [dot]

/-- A self inner product is nonnegative. -/
theorem dot_self_nonneg (x : Vec) : 0 ≤ dot x x := by
  induction x with
  | nil => simp [dot]
  | cons a x ih => rw [dot_cons]; nlinarith [mul_self_nonneg a]

/-- The squared-distance expansion of lines 195-197 equals the squared norm
of the difference, for rows of equal length. -/
theorem sqnorm_expand (x : Vec) : ∀ c : Vec, c.length = x.length →
    sqnorm x + sqnorm c - 2 * dot x c = sqnorm (vsub x c) := by
  unfold sqnorm
  induction x with
  | nil =>
    intro c hc
    cases c with
    | nil => simp [dot, vsub]
    | cons b c => simp at hc
  | cons a x ih =>
    intro c hc
    cases c with
    | nil => simp at hc
    | cons b c =>
      have h := ih c (by simpa using hc)
      have hv : vsub (a :: x) (b :: c) = (a - b) :: vsub x c := rfl
      rw [hv]
      simp only [dot_cons]
      linear_combination h

/-- A zero squared norm of the difference forces equality of the rows. -/
theorem eq_of_sqnorm_vsub_zero (x : Vec) : ∀ c : Vec, c.length = x.length →
    sqnorm (vsub x c) = 0 → x = c := by
  induction x with
  | nil =>
    intro c hc _
    cases c with
    | nil => rfl
    | cons b c => simp at hc
  | cons a x ih =>
    intro c hc h0
    cases c with
    | nil => simp at hc
    | cons b c =>
      have hv : vsub (a :: x) (b :: c) = (a - b) :: vsub x c := rfl
      rw [hv] at h0
      unfold sqnorm at h0
      rw [dot_cons] at h0
      have h1 : 0 ≤ (a - b) * (a - b) := mul_self_nonneg _
      have h2 : 0 ≤ dot (vsub x c) (vsub x c) := dot_self_nonneg _
      have hab : a = b := by nlinarith
      have hx : x = c := by
        refine ih c (by simpa using hc) ?_
        unfold sqnorm
        linarith
      rw [hab, hx]

/-- C6: if a query row equals codebook entry `j` exactly, `argmin` over the
squared-distance expansion yields a valid index whose codebook entry equals
entry `j`; ties are broken by the lowest index; and under pairwise-distinct
codebook entries the selected class is exactly `j`. -/
theorem nearest_neighbor_assignment (cb : Mat) (x : Vec) (j : Nat)
    (hj : j < cb.length) (hlen : ∀ r ∈ cb, r.length = x.length)
    (hxj : cb[j]! = x) :
    argmin (distanceRow cb x) < cb.length ∧
    cb[argmin (distanceRow cb x)]! = x ∧
    (∀ i, i < cb.length →
      (distanceRow cb x)[i]! = (distanceRow cb x)[argmin (distanceRow cb x)]! →
      argmin (distanceRow cb x) ≤ i) ∧
    (cb.Pairwise (fun r s => r ≠ s) → argmin (distanceRow cb x) = j) := by
  have hdlen : (distanceRow cb x).length = cb.length := by simp [distanceRow]
  have hdne : distanceRow cb x ≠ [] := by
    intro h
    rw [h] at hdlen
    simp at hdlen
    omega
  have hm : argmin (distanceRow cb x) < (distanceRow cb x).length :=
    argmin_lt_length _ hdne
  have hm' : argmin (distanceRow cb x) < cb.length := by omega
  have hcbj : cb[j]! = cb[j] := getElem!_pos cb j hj
  have hj' : j < (distanceRow cb x).length := by omega
  -- the distance at j is zero
  have hdj : (distanceRow cb x)[j] = 0 := by
    unfold distanceRow
    rw [List.getElem_map]
    have : cb[j] = x := by rw [← hcbj, hxj]
    rw [this]
    unfold sqnorm
    ring
  -- the distance at argmin is the squared norm of a difference
  have hdm : (distanceRow cb x)[argmin (distanceRow cb x)] =
      sqnorm x + sqnorm (cb[argmin (distanceRow cb x)]) -
        2 * dot x (cb[argmin (distanceRow cb x)]) := by
    unfold distanceRow
    rw [List.getElem_map]
  have hmlen : (cb[argmin (distanceRow cb x)]).length = x.length :=
    hlen _ (List.getElem_mem hm')
  have hexp : (distanceRow cb x)[argmin (distanceRow cb x)] =
      sqnorm (vsub x (cb[argmin (distanceRow cb x)])) := by
    rw [hdm, sqnorm_expand x _ hmlen]
  have hle : (distanceRow cb x)[argmin (distanceRow cb x)] ≤ 0 := by
    have := argmin_le_mem (distanceRow cb x) hm ((distanceRow cb x)[j])
      (List.getElem_mem hj')
    rw [hdj] at this
    exact this
  have hge : 0 ≤ (distanceRow cb x)[argmin (distanceRow cb x)] := by
    rw [hexp]
    exact dot_self_nonneg _
  have hzero : sqnorm (vsub x (cb[argmin (distanceRow cb x)])) = 0 := by
    rw [← hexp]
    linarith
  have hxm : x = cb[argmin (distanceRow cb x)] :=
    eq_of_sqnorm_vsub_zero x _ hmlen hzero
  have hcbm : cb[argmin (distanceRow cb x)]! = cb[argmin (distanceRow cb x)] :=
    getElem!_pos cb _ hm'
  refine ⟨hm', by rw [hcbm, ← hxm], ?_, ?_⟩
  · intro i hi hieq
    by_contra hcon
    push_neg at hcon
    have hi' : i < (distanceRow cb x).length := by omega
    have hfirst := argmin_first (distanceRow cb x) i hcon hm
    have h1 : (distanceRow cb x)[i]! = (distanceRow cb x)[i] :=
      getElem!_pos (distanceRow cb x) i hi'
    have h2 : (distanceRow cb x)[argmin (distanceRow cb x)]! =
        (distanceRow cb x)[argmin (distanceRow cb x)] :=
      getElem!_pos (distanceRow cb x) _ hm
    rw [h1, h2] at hieq
    rw [hieq] at hfirst
    exact lt_irrefl _ hfirst
  · intro hpw
    by_contra hne
    have hgp := List.pairwise_iff_getElem.mp hpw
    have heq : cb[argmin (distanceRow cb x)] = cb[j] := by
      rw [← hxm, ← hcbj, hxj]
    rcases Nat.lt_or_ge (argmin (distanceRow cb x)) j with hlt | hge2
    · exact hgp _ _ hm' hj hlt heq
    · have hlt2 : j < argmin (distanceRow cb x) := by omega
      exact hgp _ _ hj hm' hlt2 heq.symm

/-- C6 witness: a two-entry codebook and a query equal to entry 1. -/
theorem nearest_neighbor_assignment_witness :
    argmin (distanceRow [[0], [1]] [1]) < ([[0], [1]] : Mat).length ∧
    ([[0], [1]] : Mat)[argmin (distanceRow [[0], [1]] [1])]! = [1] ∧
    (∀ i, i < ([[0], [1]] : Mat).length →
      (distanceRow [[0], [1]] [1])[i]! =
        (distanceRow [[0], [1]] [1])[argmin (distanceRow [[0], [1]] [1])]! →
      argmin (distanceRow [[0], [1]] [1]) ≤ i) ∧
    (([[0], [1]] : Mat).Pairwise (fun r s => r ≠ s) →
      argmin (distanceRow [[0], [1]] [1]) = 1) :=
  nearest_neighbor_assignment [[0], [1]] [1] 1 (by decide) (by decide) (by decide)

/-- Entry-wise nonnegativity is preserved by `vadd`. -/
theorem vadd_nonneg_entries (a b : Vec) (ha : ∀ x ∈ a, 0 ≤ x) (hb : ∀ x ∈ b, 0 ≤ x) :
    ∀ x ∈ vadd a b, 0 ≤ x := by
  induction a generalizing b with
  | nil => intro x hx; simp [vadd] at hx
  | cons p a ih =>
    intro x hx
    cases b with
    | nil => simp [vadd] at hx
    | cons q b =>
      simp only [vadd, List.zipWith_cons_cons, List.mem_cons] at hx
      rcases hx with rfl | hx
      · have h1 := ha p (by simp)
        have h2 := hb q (by simp)
        linarith
      · exact ih b (fun y hy => ha y (by simp [hy])) (fun y hy => hb y (by simp [hy])) x hx

/-- `vadd` of equal-length rows sums to the sum of the sums. -/
theorem vadd_sum (a : Vec) : ∀ b : Vec, a.length = b.length →
    (vadd a b).sum = a.sum + b.sum := by
  induction a with
  | nil =>
    intro b hb
    cases b with
    | nil => simp [vadd]
    | cons q b => simp at hb
  | cons p a ih =>
    intro b hb
    cases b with
    | nil => simp at hb
    | cons q b =>
      have h := ih b (by simpa using hb)
      simp only [vadd, List.zipWith_cons_cons, List.sum_cons] at h ⊢
      rw [h]
      ring

/-- `vadd` of equal-length rows keeps the length. -/
theorem vadd_length (a b : Vec) : (vadd a b).length = min a.length b.length := by
  simp [vadd]

/-- The fold underlying `colSum` keeps nonnegative entries nonnegative. -/
theorem foldl_vadd_nonneg (rows : Mat) : ∀ acc : Vec,
    (∀ x ∈ acc, 0 ≤ x) → (∀ r ∈ rows, ∀ a ∈ r, 0 ≤ a) →
    ∀ x ∈ rows.foldl vadd acc, 0 ≤ x := by
  induction rows with
  | nil => intro acc ha _ x hx; exact ha x hx
  | cons r rows ih =>
    intro acc ha hr x hx
    simp only [List.foldl_cons] at hx
    exact ih (vadd acc r) (vadd_nonneg_entries acc r ha (hr r (by simp)))
      (fun s hs a hA => hr s (by simp [hs]) a hA) x hx

/-- The fold underlying `colSum` keeps length `K` when all rows have
length `K`. -/
theorem foldl_vadd_length (K : Nat) (rows : Mat) (hr : ∀ r ∈ rows, r.length = K) :
    ∀ acc : Vec, acc.length = K → (rows.foldl vadd acc).length = K := by
  induction rows with
  | nil => intro acc ha; simpa using ha
  | cons r rows ih =>
    intro acc ha
    simp only [List.foldl_cons]
    refine ih (fun s hs => hr s (by simp [hs])) (vadd acc r) ?_
    rw [vadd_length, ha, hr r (by simp)]
    omega

/-- The fold underlying `colSum` adds up all row sums. -/
theorem foldl_vadd_sum (K : Nat) (rows : Mat) (hr : ∀ r ∈ rows, r.length = K) :
    ∀ acc : Vec, acc.length = K →
    (rows.foldl vadd acc).sum = acc.sum + (rows.map (fun r => r.sum)).sum := by
  induction rows with
  | nil => intro acc _; simp
  | cons r rows ih =>
    intro acc ha
    simp only [List.foldl_cons, List.map_cons, List.sum_cons]
    rw [ih (fun s hs => hr s (by simp [hs])) (vadd acc r)
      (by rw [vadd_length, ha, hr r (by simp)]; omega)]
    rw [vadd_sum acc r (by rw [ha, hr r (by simp)])]
    ring

/-- A one-hot row has length `K`. -/
theorem oneHot_length (K i : Nat) : (oneHot K i).length = K := by simp [oneHot]

/-- A one-hot row has nonnegative entries. -/
theorem oneHot_nonneg (K i : Nat) : ∀ x ∈ oneHot K i, 0 ≤ x := by
  intro x hx
  simp only [oneHot, List.mem_map, List.mem_range] at hx
  obtain ⟨k, _, hk⟩ := hx
  split at hk
  · rw [← hk]
    norm_num
  · rw [← hk]

/-- The sum of a one-hot row is 1 when the hot index is in range. -/
theorem oneHot_sum (K i : Nat) :
    (oneHot K i).sum = if i < K then (1 : ℚ) else 0 := by
  unfold oneHot
  induction K with
  | zero => simp
  | succ K ih =>
    rw [List.range_succ, List.map_append, List.sum_append, ih]
    by_cases hiK : i < K
    · have hne : K ≠ i := by omega
      have hlt : i < K + 1 := by omega
      simp [hiK, hne, hlt]
    · by_cases hEq : K = i
      · subst hEq
        simp [hiK]
      · have hnlt : ¬i < K + 1 := by omega
        simp [hiK, hEq, hnlt]

/-- Summing a map that is constantly 1 counts the list length. -/
theorem sum_map_ones (l : Mat) (f : Vec → ℚ) (h : ∀ r ∈ l, f r = 1) :
    (l.map f).sum = (l.length : ℚ) := by
  induction l with
  | nil => simp
  | cons r l ih =>
    simp only [List.map_cons, List.sum_cons, List.length_cons]
    rw [h r (by simp), ih (fun s hs => h s (by simp [hs]))]
    push_cast
    ring

/-- The decayed blend of line 227-228 sums linearly. -/
theorem sum_zipWith_blend (dcy : ℚ) (s : Vec) : ∀ e : Vec, s.length = e.length →
    (List.zipWith (fun a b => a * dcy + (1 - dcy) * b) s e).sum =
      dcy * s.sum + (1 - dcy) * e.sum := by
  induction s with
  | nil =>
    intro e he
    cases e with
    | nil => simp
    | cons b e => simp at he
  | cons a s ih =>
    intro e he
    cases e with
    | nil => simp at he
    | cons b e =>
      have h := ih e (by simpa using he)
      simp only [List.zipWith_cons_cons, List.sum_cons]
      rw [h]
      ring

/-- The decayed blend keeps nonnegative entries nonnegative for a decay in
`[0, 1]`. -/
theorem zipWith_blend_nonneg (dcy : ℚ) (hd0 : 0 ≤ dcy) (hd1 : dcy ≤ 1) (s : Vec) :
    ∀ e : Vec, (∀ x ∈ s, 0 ≤ x) → (∀ x ∈ e, 0 ≤ x) →
    ∀ x ∈ List.zipWith (fun a b => a * dcy + (1 - dcy) * b) s e, 0 ≤ x := by
  induction s with
  | nil => intro e _ _ x hx; simp at hx
  | cons a s ih =>
    intro e hs he x hx
    cases e with
    | nil => simp at hx
    | cons b e =>
      simp only [List.zipWith_cons_cons, List.mem_cons] at hx
      rcases hx with rfl | hx
      · have h1 := hs a (by simp)
        have h2 := he b (by simp)
        nlinarith
      · exact ih e (fun y hy => hs y (by simp [hy])) (fun y hy => he y (by simp [hy])) x hx

/-- C10 (implicit): whenever the EMA-update branch runs on at least one
one-hot assignment row, with decay in `(0, 1)` and nonnegative prior
cluster sizes of length `token_class_num`, every renormalized
`ema_cluster_size` entry is strictly positive — so line 236's per-class
division `ema_w / ema_cluster_size` never divides by zero. -/
theorem ema_cluster_size_pos (P : Params) (st : QuantState) (enc ef : Mat)
    (hN : enc ≠ [])
    (hrows : ∀ r ∈ enc, ∃ i, i < P.token_class_num ∧ r = oneHot P.token_class_num i)
    (hd0 : 0 < P.decay) (hd1 : P.decay < 1)
    (hs : ∀ x ∈ st.ema_cluster_size, 0 ≤ x)
    (hsl : st.ema_cluster_size.length = P.token_class_num) :
    ∀ x ∈ (emaStep P st enc ef).ema_cluster_size, 0 < x := by
  intro x hx
  simp only [emaStep] at hx
  have hrl : ∀ r ∈ enc, r.length = P.token_class_num := by
    intro r hr
    obtain ⟨i, _, rfl⟩ := hrows r hr
    exact oneHot_length _ _
  have hre : ∀ r ∈ enc, ∀ a ∈ r, 0 ≤ a := by
    intro r hr
    obtain ⟨i, _, rfl⟩ := hrows r hr
    exact oneHot_nonneg _ _
  have hrsum : ∀ r ∈ enc, r.sum = 1 := by
    intro r hr
    obtain ⟨i, hi, rfl⟩ := hrows r hr
    rw [oneHot_sum]
    simp [hi]
  -- facts about the column sums
  have hcs_len : (colSum P.token_class_num enc).length = P.token_class_num :=
    foldl_vadd_length _ enc hrl _ (by simp)
  have hcs_nonneg : ∀ x ∈ colSum P.token_class_num enc, 0 ≤ x :=
    foldl_vadd_nonneg enc _ (by intro x hx2; rw [List.eq_of_mem_replicate hx2]) hre
  have hcs_sum : (colSum P.token_class_num enc).sum = (enc.length : ℚ) := by
    unfold colSum
    rw [foldl_vadd_sum _ enc hrl _ (by simp)]
    rw [sum_map_ones enc _ hrsum]
    simp
  -- facts about the decayed blend
  have hb_nonneg : ∀ y ∈ List.zipWith (fun a b => a * P.decay + (1 - P.decay) * b)
      st.ema_cluster_size (colSum P.token_class_num enc), 0 ≤ y :=
    zipWith_blend_nonneg P.decay (le_of_lt hd0) (le_of_lt hd1) _ _ hs hcs_nonneg
  have hb_sum : (List.zipWith (fun a b => a * P.decay + (1 - P.decay) * b)
      st.ema_cluster_size (colSum P.token_class_num enc)).sum =
        P.decay * st.ema_cluster_size.sum + (1 - P.decay) * (enc.length : ℚ) := by
    rw [sum_zipWith_blend P.decay _ _ (by rw [hsl, hcs_len]), hcs_sum]
  have hNlen : 1 ≤ (enc.length : ℚ) := by
    have : 1 ≤ enc.length := List.length_pos.mpr hN
    exact_mod_cast this
  have hssum : 0 ≤ st.ema_cluster_size.sum := List.sum_nonneg hs
  have hn_pos : 0 < (List.zipWith (fun a b => a * P.decay + (1 - P.decay) * b)
      st.ema_cluster_size (colSum P.token_class_num enc)).sum := by
    rw [hb_sum]
    nlinarith
  -- the renormalized entries are positive
  unfold renormalize at hx
  simp only [List.mem_map] at hx
  obtain ⟨y, hy, rfl⟩ := hx
  have hy0 : 0 ≤ y := hb_nonneg y hy
  have heps : (0 : ℚ) < eps := by norm_num [eps]
  have hKe : (0 : ℚ) ≤ (P.token_class_num : ℚ) * eps := by positivity
  apply mul_pos
  · apply div_pos
    · linarith
    · linarith
  · exact hn_pos

/-- C10 witness: one one-hot row, decay `1/2`, prior sizes `[1]`. -/
theorem ema_cluster_size_pos_witness :
    0 < (emaStep P1 st0 [[1]] [[0]]).ema_cluster_size[0]! :=
  ema_cluster_size_pos P1 st0 [[1]] [[0]] (by decide)
    (by
      intro r hr
      rw [List.mem_singleton] at hr
      exact ⟨0, by norm_num [P1, P0], by rw [hr]; rfl⟩)
    (by norm_num [P1, P0]) (by norm_num [P1, P0])
    (by
      intro x hx
      simp only [st0] at hx
      rw [List.mem_singleton] at hx
      rw [hx]
      norm_num)
    rfl
    ((emaStep P1 st0 [[1]] [[0]]).ema_cluster_size[0]!)
    (by
      have hl : 0 < (emaStep P1 st0 [[1]] [[0]]).ema_cluster_size.length := by decide
      have hg : (emaStep P1 st0 [[1]] [[0]]).ema_cluster_size[0]! =
          (emaStep P1 st0 [[1]] [[0]]).ema_cluster_size[0] :=
        getElem!_pos ((emaStep P1 st0 [[1]] [[0]]).ema_cluster_size) 0 hl
      rw [hg]
      exact List.getElem_mem hl)

/-- Two joint records that agree on the visibility flag, and agree entirely
wherever the flag marks the joint visible.  Invisible joints may carry
arbitrary coordinates. -/
def JointAgree (j1 j2 : Joint) : Prop :=
  j1.2.2 = j2.2.2 ∧ (j1.2.2 = true → j1 = j2)

/-- The output width of a linear layer is independent of its input. -/
theorem linear_length (W : Mat) (b : Vec) (x : Vec) :
    (linear W b x).length = min W.length b.length := by
  simp [linear]

/-- With weight `0` the mask blend returns the invisible token (truncated to
the feature length) regardless of the feature values. -/
theorem blend_invisible (inv : Vec) : ∀ f1 f2 : Vec, f1.length = f2.length →
    List.zipWith (fun a m => a * (0 : ℚ) + m * (1 - 0)) f1 inv =
    List.zipWith (fun a m => a * (0 : ℚ) + m * (1 - 0)) f2 inv := by
  induction inv with
  | nil => intro f1 f2 _; simp
  | cons m inv ih =>
    intro f1 f2 h
    cases f1 with
    | nil =>
      cases f2 with
      | nil => rfl
      | cons b f2 => simp at h
    | cons a f1 =>
      cases f2 with
      | nil => simp at h
      | cons b f2 =>
        simp only [List.zipWith_cons_cons]
        rw [ih f1 f2 (by simpa using h)]
        norm_num

/-- One slot of the mask blend: if the slot is visible the features agree,
and if it is invisible the blend ignores the features (up to length). -/
theorem blend_point (inv f1 f2 : Vec) (v : Bool) (hlen : f1.length = f2.length)
    (hv : v = true → f1 = f2) :
    List.zipWith
      (fun a m => a * (if v then (1 : ℚ) else 0) + m * (1 - if v then (1 : ℚ) else 0))
      f1 inv =
    List.zipWith
      (fun a m => a * (if v then (1 : ℚ) else 0) + m * (1 - if v then (1 : ℚ) else 0))
      f2 inv := by
  cases v with
  | true => rw [hv rfl]
  | false =>
    simp only [Bool.false_eq_true, if_false]
    exact blend_invisible inv f1 f2 hlen

/-- Mask-blend congruence, branch without guidance and without dropout. -/
theorem encodeMasked_congr_plain (P : Params) (e1 e2 : List Joint)
    (h : List.Forall₂ JointAgree e1 e2) :
    List.zipWith
      (fun f v =>
        let w : ℚ := if v then 1 else 0
        List.zipWith (fun a m => a * w + m * (1 - w)) f P.invisible_token)
      ((e1.map (fun j => [j.1, j.2.1])).map (linear P.start_embed_W P.start_embed_b))
      (e1.map (fun j => j.2.2)) =
    List.zipWith
      (fun f v =>
        let w : ℚ := if v then 1 else 0
        List.zipWith (fun a m => a * w + m * (1 - w)) f P.invisible_token)
      ((e2.map (fun j => [j.1, j.2.1])).map (linear P.start_embed_W P.start_embed_b))
      (e2.map (fun j => j.2.2)) := by
  induction h with
  | nil => rfl
  | cons ha ht ih =>
    rename_i a b l1 l2
    simp only [List.map_cons, List.zipWith_cons_cons]
    rw [ih]
    congr 1
    rw [ha.1]
    exact blend_point P.invisible_token _ _ b.2.2
      (by rw [linear_length, linear_length])
      (fun hv => by rw [ha.2 (by rw [ha.1]; exact hv)])

/-- Mask-blend congruence, branch without guidance, with dropout. -/
theorem encodeMasked_congr_drop (P : Params) (e1 e2 : List Joint)
    (h : List.Forall₂ JointAgree e1 e2) : ∀ re : List ℚ,
    List.zipWith
      (fun f v =>
        let w : ℚ := if v then 1 else 0
        List.zipWith (fun a m => a * w + m * (1 - w)) f P.invisible_token)
      ((e1.map (fun j => [j.1, j.2.1])).map (linear P.start_embed_W P.start_embed_b))
      (List.zipWith (fun r v => decide (P.drop_rate < r) && v) re
        (e1.map (fun j => j.2.2))) =
    List.zipWith
      (fun f v =>
        let w : ℚ := if v then 1 else 0
        List.zipWith (fun a m => a * w + m * (1 - w)) f P.invisible_token)
      ((e2.map (fun j => [j.1, j.2.1])).map (linear P.start_embed_W P.start_embed_b))
      (List.zipWith (fun r v => decide (P.drop_rate < r) && v) re
        (e2.map (fun j => j.2.2))) := by
  induction h with
  | nil => intro re; rfl
  | cons ha ht ih =>
    rename_i a b l1 l2
    intro re
    cases re with
    | nil => rfl
    | cons r rs =>
      simp only [List.map_cons, List.zipWith_cons_cons]
      rw [ih rs]
      congr 1
      rw [ha.1]
      exact blend_point P.invisible_token _ _ (decide (P.drop_rate < r) && b.2.2)
        (by rw [linear_length, linear_length])
        (fun hv => by
          rw [ha.2 (by rw [ha.1]; exact ((Bool.and_eq_true _ _).mp hv).2)])

/-- Mask-blend congruence, branch with guidance, without dropout. -/
theorem encodeMasked_congr_guide (P : Params) (e1 e2 : List Joint)
    (h : List.Forall₂ JointAgree e1 e2) : ∀ jfe : Mat,
    List.zipWith
      (fun f v =>
        let w : ℚ := if v then 1 else 0
        List.zipWith (fun a m => a * w + m * (1 - w)) f P.invisible_token)
      (List.zipWith (fun f g => f ++ linear P.start_img_embed_W P.start_img_embed_b g)
        ((e1.map (fun j => [j.1, j.2.1])).map (linear P.start_embed_W P.start_embed_b))
        jfe)
      (e1.map (fun j => j.2.2)) =
    List.zipWith
      (fun f v =>
        let w : ℚ := if v then 1 else 0
        List.zipWith (fun a m => a * w + m * (1 - w)) f P.invisible_token)
      (List.zipWith (fun f g => f ++ linear P.start_img_embed_W P.start_img_embed_b g)
        ((e2.map (fun j => [j.1, j.2.1])).map (linear P.start_embed_W P.start_embed_b))
        jfe)
      (e2.map (fun j => j.2.2)) := by
  induction h with
  | nil => intro jfe; rfl
  | cons ha ht ih =>
    rename_i a b l1 l2
    intro jfe
    cases jfe with
    | nil => rfl
    | cons f fs =>
      simp only [List.map_cons, List.zipWith_cons_cons]
      rw [ih fs]
      congr 1
      rw [ha.1]
      exact blend_point P.invisible_token _ _ b.2.2
        (by simp only [List.length_append, linear_length])
        (fun hv => by rw [ha.2 (by rw [ha.1]; exact hv)])

/-- Mask-blend congruence, branch with guidance and dropout. -/
theorem encodeMasked_congr_guide_drop (P : Params) (e1 e2 : List Joint)
    (h : List.Forall₂ JointAgree e1 e2) : ∀ (jfe : Mat) (re : List ℚ),
    List.zipWith
      (fun f v =>
        let w : ℚ := if v then 1 else 0
        List.zipWith (fun a m => a * w + m * (1 - w)) f P.invisible_token)
      (List.zipWith (fun f g => f ++ linear P.start_img_embed_W P.start_img_embed_b g)
        ((e1.map (fun j => [j.1, j.2.1])).map (linear P.start_embed_W P.start_embed_b))
        jfe)
      (List.zipWith (fun r v => decide (P.drop_rate < r) && v) re
        (e1.map (fun j => j.2.2))) =
    List.zipWith
      (fun f v =>
        let w : ℚ := if v then 1 else 0
        List.zipWith (fun a m => a * w + m * (1 - w)) f P.invisible_token)
      (List.zipWith (fun f g => f ++ linear P.start_img_embed_W P.start_img_embed_b g)
        ((e2.map (fun j => [j.1, j.2.1])).map (linear P.start_embed_W P.start_embed_b))
        jfe)
      (List.zipWith (fun r v => decide (P.drop_rate < r) && v) re
        (e2.map (fun j => j.2.2))) := by
  induction h with
  | nil => intro jfe re; rfl
  | cons ha ht ih =>
    rename_i a b l1 l2
    intro jfe re
    cases jfe with
    | nil => rfl
    | cons f fs =>
      cases re with
      | nil => rfl
      | cons r rs =>
        simp only [List.map_cons, List.zipWith_cons_cons]
        rw [ih fs rs]
        congr 1
        rw [ha.1]
        exact blend_point P.invisible_token _ _ (decide (P.drop_rate < r) && b.2.2)
          (by simp only [List.length_append, linear_length])
          (fun hv => by
            rw [ha.2 (by rw [ha.1]; exact ((Bool.and_eq_true _ _).mp hv).2)])

/-- Masked encoding is unaffected by the coordinates of invisible joints. -/
theorem encodeMasked_congr (P : Params) (train : Bool) (e1 e2 : List Joint)
    (jfe : Mat) (re : List ℚ) (h : List.Forall₂ JointAgree e1 e2) :
    encodeMasked P train e1 jfe re = encodeMasked P train e2 jfe re := by
  simp only [encodeMasked]
  by_cases hg : 0 < P.guide_ratio
  · by_cases hc : train = true ∧ P.stage_pct = Stage.tokenizer
    · rw [if_pos hg, if_pos hg, if_pos hc, if_pos hc]
      exact encodeMasked_congr_guide_drop P e1 e2 h jfe re
    · rw [if_pos hg, if_pos hg, if_neg hc, if_neg hc]
      exact encodeMasked_congr_guide P e1 e2 h jfe
  · by_cases hc : train = true ∧ P.stage_pct = Stage.tokenizer
    · rw [if_neg hg, if_neg hg, if_pos hc, if_pos hc]
      exact encodeMasked_congr_drop P e1 e2 h re
    · rw [if_neg hg, if_neg hg, if_neg hc, if_neg hc]
      exact encodeMasked_congr_plain P e1 e2 h

/-- One-element encoder congruence under invisible-coordinate changes. -/
theorem encodeElem_congr (P : Params) (train : Bool) (e1 e2 : List Joint)
    (jfe : Mat) (re : List ℚ) (h : List.Forall₂ JointAgree e1 e2) :
    encodeElem P train e1 jfe re = encodeElem P train e2 jfe re := by
  unfold encodeElem
  rw [encodeMasked_congr P train e1 e2 jfe re h]

/-- Whole-batch encoder congruence under invisible-coordinate changes. -/
theorem encodeBatch_congr (P : Params) (train : Bool)
    (j1 j2 : List (List Joint)) (jf : List Mat) (rand : List (List ℚ))
    (h : List.Forall₂ (List.Forall₂ JointAgree) j1 j2) :
    encodeBatch P train j1 jf rand = encodeBatch P train j2 jf rand := by
  unfold encodeBatch
  congr 1
  induction h generalizing jf rand with
  | nil => rfl
  | cons ha ht ih =>
    cases jf with
    | nil => rfl
    | cons f jfs =>
      cases rand with
      | nil => rfl
      | cons r rs =>
        simp only [List.zip_cons_cons, List.map_cons]
        rw [encodeElem_congr P train _ _ f r ha, ih jfs rs]

/-- C8: two forward runs with the same parameters, state, guidance, logits
and dropout draw, whose joint inputs differ only in the coordinates of
joints flagged invisible, produce identical encoder token features and
identical forward outputs. -/
theorem invisible_joints_noninterference (P : Params) (st : QuantState)
    (joints1 joints2 : List (List Joint)) (jf : List Mat) (cls : Mat)
    (rand : List (List ℚ)) (train : Bool)
    (hrel : List.Forall₂ (List.Forall₂ JointAgree) joints1 joints2) :
    encodeBatch P train joints1 jf rand = encodeBatch P train joints2 jf rand ∧
    forward P st joints1 jf cls rand train = forward P st joints2 jf cls rand train := by
  have hb : encodeBatch P train joints1 jf rand = encodeBatch P train joints2 jf rand :=
    encodeBatch_congr P train joints1 joints2 jf rand hrel
  refine ⟨hb, ?_⟩
  have hl : joints1.length = joints2.length := hrel.length_eq
  unfold forward
  rw [hb, hl]

/-- C8 witness: one invisible joint carrying different coordinates in the
two runs. -/
theorem invisible_joints_noninterference_witness :
    encodeBatch P1 true [[(5, 7, false)]] [[[0]]] [[1]] =
      encodeBatch P1 true [[(0, 0, false)]] [[[0]]] [[1]] ∧
    forward P1 st0 [[(5, 7, false)]] [[[0]]] [[1]] [[1]] true =
      forward P1 st0 [[(0, 0, false)]] [[[0]]] [[1]] [[1]] true :=
  invisible_joints_noninterference P1 st0 [[(5, 7, false)]] [[(0, 0, false)]]
    [[[0]]] [[1]] [[1]] true
    (List.Forall₂.cons
      (List.Forall₂.cons ⟨rfl, fun hv => absurd hv Bool.false_ne_true⟩ List.Forall₂.nil)
      List.Forall₂.nil)

end PCT
